import Mathlib

/-!
# Entity-resolution and co-occurrence network pipeline: verification

Shallow embedding of the name-consolidation and network-construction
pipeline (scripts/final/run_name_consolidation*.py, build_network.py,
create_unique_names.py and scripts/build_network.py), together with
theorems settling the specification claims about it.

Conventions of the embedding:
* Python `str` is modelled as Lean `String`, manipulated through its
  character list (`String.data`); only ASCII text occurs in the data
  handled by these scripts, so ASCII-only case conversion is faithful.
* Python dicts keyed by strings are modelled as association lists
  (`List (String × String)`), with insertion-order semantics.
* Python sets of strings are modelled as duplicate-free lists in first
  insertion order; all properties proved are order-independent.
* SQL tables are modelled as lists of rows; an `UPDATE t SET c = new
  WHERE c = old` is a `List.map` over the rows.
-/

namespace EpsteinFiles

/-! ## String helpers (character-list renderings of the Python `str` ops) -/

/-- Python `str.lower()` (ASCII). -/
def toLowerStr (s : String) : String :=
  String.mk (s.data.map Char.toLower)

/-- Python `str.strip()`: drop whitespace from both ends. -/
def trimStr (s : String) : String :=
  String.mk (((s.data.dropWhile Char.isWhitespace).reverse.dropWhile Char.isWhitespace).reverse)

/-- Python `str.endswith(suf)`. -/
def endsWithStr (s suf : String) : Bool :=
  suf.data.isSuffixOf s.data

/-- Python `s[:-k]` for `k ≤ len(s)`: drop the last `k` characters. -/
def dropRightStr (s : String) (k : Nat) : String :=
  String.mk (s.data.take (s.data.length - k))

/-- Lexicographic comparison of character lists by code point. -/
def charListLt : List Char → List Char → Bool
  | _, [] => false
  | [], _ :: _ => true
  | c :: cs, d :: ds =>
    if c.toNat < d.toNat then true
    else if d.toNat < c.toNat then false
    else charListLt cs ds

/-- Python `a < b` on strings: lexicographic by code point. -/
def strLt (a b : String) : Bool :=
  charListLt a.data b.data

/-! ## Dictionary / set helpers -/

/-- Python `dict.get(k)` on an association list (first binding wins,
as insertion keeps keys unique). -/
def dget : List (String × String) → String → Option String
  | [], _ => none
  | (k, v) :: rest, key => if k = key then some v else dget rest key

/-- Python `dict[k] = v` / one entry of `dict.update`: replace the value
of an existing key in place, else append the new binding. -/
def dinsert : List (String × String) → String → String → List (String × String)
  | [], k, v => [(k, v)]
  | (k', v') :: rest, k, v =>
    if k' = k then (k', v) :: rest else (k', v') :: dinsert rest k v

/-- Python `set.add`: append an element unless already present. -/
def addName (l : List String) (n : String) : List String :=
  if n ∈ l then l else l ++ [n]

/-! ## EquivalenceMapBuilder: applying oracle response sets

`run_name_consolidation_v2.py` (and v3/v4) apply the accumulated
response set `all_changes` to the canonical-name column with one SQL
`UPDATE` per `(old, new)` pair, executed sequentially:

    for old_name, new_name in all_changes.items():
        UPDATE t SET col = new_name WHERE col = old_name

A generation is the stored column: a list of `(raw_name, canonical)` rows.
-/

/-- One `UPDATE t SET col = new WHERE col = old` over the whole table. -/
def applyPair (t : List (String × String)) (p : String × String) : List (String × String) :=
  t.map (fun rc => (rc.1, if rc.2 = p.1 then p.2 else rc.2))

/-- The sequential application of a response set (the `.items()` loop). -/
def applyChanges (t : List (String × String)) (changes : List (String × String)) :
    List (String × String) :=
  changes.foldl applyPair t

/-- The effect of the `UPDATE` loop on a single cell value. -/
def applyVal (changes : List (String × String)) (c : String) : String :=
  changes.foldl (fun c p => if c = p.1 then p.2 else c) c

/-- Accumulation of oracle batches into `all_changes` via
`all_changes.update(changes)` (v2 line 176, v3 line 243): plain
key-overwriting dictionary insertion, pair by pair. -/
def applyBatch (d : List (String × String)) (batch : List (String × String)) :
    List (String × String) :=
  batch.foldl (fun d p => dinsert d p.1 p.2) d

/-! ## The v3/v4 pass shape: new generation column

`run_name_consolidation_v3.py` adds a fresh column `canonical_name [F2c]`,
copies `F2` into it where it is NULL, and applies the updates to the new
column only (lines 257–284); v4 does the same for `F2d` from `F2c`. -/

/-- A row of `FINAL_3_unique_names` as seen by the v3 pass: the raw
extracted name, the input generation's column, and the (possibly still
NULL) output generation's column. -/
structure RowV3 where
  name : String
  f2 : String
  f2c : Option String
  deriving DecidableEq, Repr

/-- `UPDATE t SET F2c = F2 WHERE F2c IS NULL`. -/
def copyStep (rows : List RowV3) : List RowV3 :=
  rows.map (fun r => { r with f2c := match r.f2c with | none => some r.f2 | some v => some v })

/-- The per-pair `UPDATE ... SET F2c = new WHERE F2c = old` loop. -/
def applyF2c (rows : List RowV3) (changes : List (String × String)) : List RowV3 :=
  changes.foldl
    (fun rs p => rs.map (fun r => { r with f2c := if r.f2c = some p.1 then some p.2 else r.f2c }))
    rows

/-- The whole v3 application step: copy the input generation into the
new column, then rewrite only the new column. -/
def v3Pass (rows : List RowV3) (changes : List (String × String)) : List RowV3 :=
  applyF2c (copyStep rows) changes

/-! ## Canonicalization lookups

`run_name_consolidation.py` line 213 assigns each raw name its canonical
form with an identity fallback: `variant_to_canonical.get(name, name)`.

`build_network.py` (final) lines 39–54 defines `consolidate_name`, which
drops (returns `None` for) empty names, names absent from the mapping,
names mapped to the `"None"` sentinel and Jeffrey-Epstein variants. -/

/-- `variant_to_canonical.get(name, name)`. -/
def canonicalFor (m : List (String × String)) (name : String) : String :=
  match dget m name with
  | some c => c
  | none => name

/-- The hard-coded `EXCLUDED_NAMES` set of `build_network.py` (final). -/
def EXCLUDED_NAMES : List String :=
  ["Jeffrey Epstein", "Jeffrey E.", "Jeffrey E", "Jeffrey", "E. Jeffrey",
   "Epstein", "Jeff Epstein", "J. Epstein", "JE", "J.E.", "jeffrey E.",
   "jeffrey", "JEFFREY", "Jeff", "jeff"]

/-- `consolidate_name` from `build_network.py` (final), lines 45–54. -/
def consolidate_name (m : List (String × String)) (name : String) : Option String :=
  if name = "" then none
  else
    match dget m name with
    | none => none
    | some canonical =>
      if canonical = "None" then none
      else if canonical ∈ EXCLUDED_NAMES ∨ name ∈ EXCLUDED_NAMES then none
      else some canonical

/-! ## GraphBuilder (`build_network.py`, final)

`main` consolidates every name mentioned in an email row through
`consolidate_name`, collects the distinct consolidated persons of the
row (a Python set), counts for each person the rows containing it,
keeps persons above an occurrence threshold, and counts co-occurrence
edges over `itertools.combinations(sorted(persons), 2)`.

`thread_id` is the PRIMARY KEY of the input table
(`run_name_extraction.py` line 56), so one input row is one thread; a
corpus is the list of per-thread `names_mentioned` lists. -/

/-- The per-name consolidation used inside the email loop
(lines 80–82): `consolidate_name` plus the redundant
`consolidated != "Jeffrey Epstein"` re-check. -/
def consolidateEff (m : List (String × String)) (n : String) : Option String :=
  match consolidate_name m n with
  | some c => if c = "Jeffrey Epstein" then none else some c
  | none => none

/-- `all_persons`: the set of consolidated persons of one thread. -/
def threadPersons (m : List (String × String)) (t : List String) : List String :=
  (t.filterMap (consolidateEff m)).dedup

/-- `person_counts[p]`: one increment per thread whose person set
contains `p` (`for p in all_persons: person_counts[p] += 1`). -/
def personCount (m : List (String × String)) (corpus : List (List String)) (x : String) : Nat :=
  corpus.foldl (fun acc t => if x ∈ threadPersons m t then acc + 1 else acc) 0

/-- Insertion into a strictly sorted duplicate-free list; folding it
renders Python `sorted(<set>)`. -/
def sinsert (x : String) : List String → List String
  | [] => [x]
  | y :: ys => if strLt x y then x :: y :: ys else if x = y then y :: ys else y :: sinsert x ys

/-- Python `sorted(<set of strings>)` as a strictly sorted list. -/
def ssort (l : List String) : List String :=
  l.foldr sinsert []

/-- `itertools.combinations(l, 2)` over a list. -/
def pairsOf : List String → List (String × String)
  | [] => []
  | x :: xs => xs.map (fun y => (x, y)) ++ pairsOf xs

/-- `persons_list = sorted({p for p in all_persons if p in valid_persons})`
with `valid_persons = {p : person_counts[p] >= minOcc}`. The occurrence
threshold is hard-coded (4 in the final script, 3 in
`scripts/build_network.py`); following the spec it is a parameter here. -/
def threadValidList (m : List (String × String)) (corpus : List (List String)) (minOcc : Nat)
    (t : List String) : List String :=
  ssort ((threadPersons m t).filter (fun p => minOcc ≤ personCount m corpus p))

/-- The co-occurrence pairs contributed by one thread. -/
def threadPairs (m : List (String × String)) (corpus : List (List String)) (minOcc : Nat)
    (t : List String) : List (String × String) :=
  pairsOf (threadValidList m corpus minOcc t)

/-- `edges[(p1, p2)]`: each thread contributes at most one occurrence of
an unordered pair, so the Counter value is the number of threads whose
pair list contains the pair. -/
def edgeCount (m : List (String × String)) (corpus : List (List String)) (minOcc : Nat)
    (p : String × String) : Nat :=
  corpus.foldl (fun acc t => if p ∈ threadPairs m corpus minOcc t then acc + 1 else acc) 0

/-- The keys of the `edges` Counter. -/
def edgeKeys (m : List (String × String)) (corpus : List (List String)) (minOcc : Nat) :
    List (String × String) :=
  ((corpus.map (threadPairs m corpus minOcc)).flatten).dedup

/-- `G.add_edge(p1, p2, weight)` for pairs at or above the edge-weight
threshold (hard-coded 1 in the final script, 2 in
`scripts/build_network.py`; a parameter here, following the spec). -/
def keptEdges (m : List (String × String)) (corpus : List (List String)) (minOcc minW : Nat) :
    List ((String × String) × Nat) :=
  (edgeKeys m corpus minOcc).filterMap
    (fun p =>
      let w := edgeCount m corpus minOcc p
      if minW ≤ w then some (p, w) else none)

/-- The node set after `G.remove_nodes_from(nx.isolates(G))`: NetworkX
nodes arise here only from `add_edge`, so every node has an incident
kept edge and the isolate removal keeps exactly the endpoints of kept
edges. -/
def finalNodes (m : List (String × String)) (corpus : List (List String)) (minOcc minW : Nat) :
    List String :=
  ((keptEdges m corpus minOcc minW).map (fun e => [e.1.1, e.1.2])).flatten.dedup

/-! ## `create_unique_names.py`: occurrences as distinct thread ids

Lines 32–48 accumulate `name_threads[name] : set of thread_id` over the
rows (stripping each raw name, skipping empty ones) and then set
`occurrences = len(name_threads[name])`. Rows here carry an explicit
thread id, since this table is keyed by it. -/

/-- Whether a row's mention list contains a raw name stripping to the
(nonempty) `name`. -/
def rowHasName (name : String) (r : String × List String) : Bool :=
  r.2.any (fun raw => trimStr raw ≠ "" && trimStr raw = name)

/-- The set (as a duplicate-free list) of thread ids whose row mentions
a raw name stripping to `name`. -/
def threadSetFor (rows : List (String × List String)) (name : String) : List String :=
  rows.foldl (fun acc r => if rowHasName name r then addName acc r.1 else acc) []

/-- `occurrences` of a (stripped, nonempty) raw name. -/
def occurrences (rows : List (String × List String)) (name : String) : Nat :=
  (threadSetFor rows name).length

/-! ## CandidateMatcher: token-overlap matching
(`run_name_consolidation_v3.py`, lines 73–136) -/

/-- A character matched by the regex class `[a-z]`. -/
def isLowerAlpha (c : Char) : Bool :=
  'a' ≤ c && c ≤ 'z'

/-- `re.findall(r'[a-z]+', ·)`: maximal runs of lowercase letters, with
the run built so far (reversed) as accumulator. -/
def runsAux : List Char → List Char → List (List Char)
  | acc, [] => if acc = [] then [] else [acc.reverse]
  | acc, c :: cs =>
    if isLowerAlpha c then runsAux (c :: acc) cs
    else if acc = [] then runsAux [] cs
    else acc.reverse :: runsAux [] cs

/-- The stop-word set of `tokenize_name`. -/
def stopwords : List String :=
  ["jr", "sr", "ii", "iii", "iv", "dr", "mr", "ms", "mrs", "prof"]

/-- `tokenize_name` (v3, lines 73–82): lowercase alphabetic tokens with
length-1 tokens and stop words removed, as a set. -/
def tokenize_name (name : String) : List String :=
  ((runsAux [] (toLowerStr name).data).map String.mk).filter
    (fun t => decide (1 < t.length) && !(stopwords.contains t)) |>.dedup

/-- `shared = tokens1 & tokens2` for two names. -/
def sharedTokens (a b : String) : List String :=
  (tokenize_name a).inter (tokenize_name b)

/-- The set of pairs processed by `find_potential_duplicates`
(lines 101–123): ordered pairs `name1 < name2` of listed names sharing
at least two tokens. The `len(tokens1) < 2: continue` guard of the
source only skips pairs that cannot share two tokens (the shared set is
contained in `tokens1`), so it does not change the processed set; the
`processed_pairs` bookkeeping only avoids revisiting a pair. -/
def pairList (names : List String) : List (String × String) :=
  (names.map (fun a =>
    names.filterMap (fun b =>
      if strLt a b ∧ 2 ≤ (sharedTokens a b).length then some (a, b) else none))).flatten

/-- Insert both names of a processed pair into the group keyed by their
shared-token set (`potential_groups[frozenset(shared)].add(...)`); the
frozenset key is canonicalized as its sorted element list. -/
def addPairToGroups (gs : List (List String × List String)) (key : List String) (a b : String) :
    List (List String × List String) :=
  match gs with
  | [] => [(key, addName (addName [] a) b)]
  | (k, ns) :: rest =>
    if k = key then (k, addName (addName ns a) b) :: rest
    else (k, ns) :: addPairToGroups rest key a b

/-- `potential_groups`: the key → name-set dictionary over all
processed pairs. -/
def buildGroups (names : List String) : List (List String × List String) :=
  (pairList names).foldl (fun gs p => addPairToGroups gs (ssort (sharedTokens p.1 p.2)) p.1 p.2) []

/-- Stable insertion for `sorted(·, key=lambda x: -len(x[1]))`. -/
def insByLen (x : List String × List String) :
    List (List String × List String) → List (List String × List String)
  | [] => [x]
  | y :: ys => if y.2.length ≤ x.2.length then x :: y :: ys else y :: insByLen x ys

/-- The groups sorted by descending member count. -/
def sortByLenDesc (l : List (List String × List String)) : List (List String × List String) :=
  l.foldr insByLen []

/-- The emission loop (lines 126–136): walk the sorted groups, keep the
names not yet assigned to an emitted group, and emit them when at least
two remain. -/
def emitGroups : List (List String × List String) → List String → List (List String)
  | [], _ => []
  | (_, gnames) :: rest, seen =>
    let newNames := gnames.filter (fun n => n ∉ seen)
    if 2 ≤ newNames.length then newNames :: emitGroups rest (seen ++ newNames)
    else emitGroups rest seen

/-- `find_potential_duplicates` (v3, lines 85–136). -/
def find_potential_duplicates (names : List String) : List (List String) :=
  emitGroups (sortByLenDesc (buildGroups names)) []

/-! ## CandidateMatcher: suffix matching
(`run_name_consolidation_v4.py`, lines 71–93) -/

/-- The suffix list of `normalize_name` (v4, line 75), in source order. -/
def suffixList : List String :=
  [" jr.", " jr", " sr.", " sr", " iii", " ii", " iv", " esq.", " esq", " phd", " md"]

/-- The suffix-stripping loop of `normalize_name`. -/
def stripSuffixes (n : String) : String :=
  suffixList.foldl (fun n s => if endsWithStr n s then dropRightStr n s.data.length else n) n

/-- A character kept by `re.sub(r'[^\w\s]', '', ·)`: word characters
(ASCII alphanumeric or underscore) and whitespace. -/
def isWordOrSpace (c : Char) : Bool :=
  c.isAlphanum || c = '_' || c.isWhitespace

/-- `normalize_name` (v4, lines 71–81): lowercase and strip, remove
trailing suffixes, remove punctuation, strip. -/
def normalize_name (name : String) : String :=
  trimStr (String.mk ((stripSuffixes (trimStr (toLowerStr name))).data.filter isWordOrSpace))

/-- `normalized_groups[norm].append(name)` on the association list of
groups (defaultdict insertion order, values in append order). -/
def addNorm (gs : List (String × List String)) (k : String) (n : String) :
    List (String × List String) :=
  match gs with
  | [] => [(k, [n])]
  | (k', ns) :: rest =>
    if k' = k then (k', ns ++ [n]) :: rest else (k', ns) :: addNorm rest k n

/-- The `normalized_groups` dictionary of `find_suffix_duplicates`. -/
def buildNormGroups (names : List String) : List (String × List String) :=
  names.foldl (fun gs n => addNorm gs (normalize_name n) n) []

/-- `find_suffix_duplicates` (v4, lines 84–93): the groups of two or
more names sharing a normalized form. -/
def find_suffix_duplicates (names : List String) : List (List String) :=
  (buildNormGroups names).filterMap (fun kg => if 2 ≤ kg.2.length then some kg.2 else none)

/-- Invariant of one `potential_groups` entry: its key contains two
distinct tokens, and every token of its key is a token of every name
collected in the entry. -/
def GroupInv (e : List String × List String) : Prop :=
  (∃ x y, x ∈ e.1 ∧ y ∈ e.1 ∧ x ≠ y) ∧ ∀ n ∈ e.2, ∀ t ∈ e.1, t ∈ tokenize_name n

/-! ## Order lemmas for the string comparison -/

theorem charToNat_inj {c d : Char} (h : c.toNat = d.toNat) : c = d :=
  Char.ext (UInt32.ext h)

theorem charListLt_irrefl : ∀ l : List Char, charListLt l l = false
  | [] => rfl
  | c :: cs => by
    simp only [charListLt, Nat.lt_irrefl, if_false]
    exact charListLt_irrefl cs

theorem charListLt_trans :
    ∀ {a b c : List Char}, charListLt a b = true → charListLt b c = true → charListLt a c = true
  | _, [], _, hab, _ => by simp [charListLt] at hab
  | _, _ :: _, [], _, hbc => by simp [charListLt] at hbc
  | [], _ :: _, _ :: _, _, _ => by simp [charListLt]
  | x :: xs, d :: ds, e :: es, hab, hbc => by
    simp only [charListLt] at hab hbc ⊢
    by_cases h1 : x.toNat < d.toNat
    · by_cases h2 : d.toNat < e.toNat
      · simp [show x.toNat < e.toNat by omega]
      · by_cases h4 : e.toNat < d.toNat
        · simp [h2, h4] at hbc
        · simp [show x.toNat < e.toNat by omega]
    · by_cases h4 : d.toNat < x.toNat
      · simp [h1, h4] at hab
      · simp only [h1, h4, if_false] at hab
        by_cases h2 : d.toNat < e.toNat
        · simp [show x.toNat < e.toNat by omega]
        · by_cases h5 : e.toNat < d.toNat
          · simp [h2, h5] at hbc
          · simp only [h2, h5, if_false] at hbc
            simp only [show ¬ x.toNat < e.toNat by omega,
              show ¬ e.toNat < x.toNat by omega, if_false]
            exact charListLt_trans hab hbc

theorem charListLt_conn :
    ∀ (a b : List Char), charListLt a b = false → charListLt b a = false → a = b
  | [], [], _, _ => rfl
  | [], _ :: _, h, _ => by simp [charListLt] at h
  | _ :: _, [], _, h => by simp [charListLt] at h
  | x :: xs, d :: ds, h1, h2 => by
    simp only [charListLt] at h1 h2
    by_cases hxd : x.toNat < d.toNat
    · simp [hxd] at h1
    · by_cases hdx : d.toNat < x.toNat
      · simp [hdx] at h2
      · have hx : x = d := charToNat_inj (by omega)
        have hxs : xs = ds :=
          charListLt_conn xs ds (by simpa [hxd, hdx] using h1) (by simpa [hxd, hdx] using h2)
        rw [hx, hxs]

theorem strLt_irrefl (s : String) : strLt s s = false :=
  charListLt_irrefl s.data

theorem strLt_trans {a b c : String} (h1 : strLt a b = true) (h2 : strLt b c = true) :
    strLt a c = true :=
  charListLt_trans h1 h2

theorem strLt_conn {a b : String} (h1 : strLt a b = false) (h2 : strLt b a = false) : a = b :=
  String.ext (charListLt_conn a.data b.data h1 h2)

theorem strLt_asymm {a b : String} (h : strLt a b = true) : strLt b a = false := by
  by_contra hc
  have hba : strLt b a = true := by
    cases hh : strLt b a with
    | false => exact absurd hh hc
    | true => rfl
  have := strLt_trans h hba
  rw [strLt_irrefl] at this
  exact Bool.false_ne_true this

theorem strLt_of_not_of_ne {a b : String} (h1 : ¬ strLt a b = true) (h2 : a ≠ b) :
    strLt b a = true := by
  cases hh : strLt b a with
  | true => rfl
  | false =>
    cases hab : strLt a b with
    | true => exact absurd hab h1
    | false => exact absurd (strLt_conn hab hh) h2

/-! ## Lemmas about `sinsert`, `ssort` and `pairsOf` -/

theorem mem_sinsert (z x : String) : ∀ l : List String, z ∈ sinsert x l ↔ z = x ∨ z ∈ l
  | [] => by simp [sinsert]
  | y :: ys => by
    simp only [sinsert]
    split
    · simp [List.mem_cons]
    · split
      · rename_i hlt heq
        subst heq
        simp only [List.mem_cons]
        tauto
      · simp only [List.mem_cons, mem_sinsert z x ys]
        tauto

theorem sinsert_pairwise (x : String) :
    ∀ {l : List String}, l.Pairwise (fun a b => strLt a b = true) →
      (sinsert x l).Pairwise (fun a b => strLt a b = true)
  | [], _ => by simp [sinsert]
  | y :: ys, h => by
    rcases List.pairwise_cons.mp h with ⟨hy, hys⟩
    simp only [sinsert]
    split
    · rename_i hlt
      refine List.pairwise_cons.mpr ⟨?_, h⟩
      intro z hz
      rcases List.mem_cons.mp hz with rfl | hz
      · exact hlt
      · exact strLt_trans hlt (hy z hz)
    · split
      · exact h
      · rename_i hnlt hne
        refine List.pairwise_cons.mpr ⟨?_, sinsert_pairwise x hys⟩
        intro z hz
        rcases (mem_sinsert z x ys).mp hz with rfl | hz
        · exact strLt_of_not_of_ne hnlt hne
        · exact hy z hz

theorem ssort_pairwise (l : List String) :
    (ssort l).Pairwise (fun a b => strLt a b = true) := by
  induction l with
  | nil => simp [ssort]
  | cons a l ih => exact sinsert_pairwise a ih

theorem mem_ssort (z : String) : ∀ l : List String, z ∈ ssort l ↔ z ∈ l
  | [] => Iff.rfl
  | a :: l => by
    show z ∈ sinsert a (ssort l) ↔ _
    rw [mem_sinsert, mem_ssort z l]
    simp

theorem pairsOf_lt :
    ∀ {l : List String}, l.Pairwise (fun a b => strLt a b = true) →
      ∀ {p : String × String}, p ∈ pairsOf l → strLt p.1 p.2 = true
  | [], _, _, hp => by simp [pairsOf] at hp
  | x :: xs, h, p, hp => by
    rcases List.pairwise_cons.mp h with ⟨hx, hxs⟩
    rcases List.mem_append.mp hp with hmap | hrec
    · rcases List.mem_map.mp hmap with ⟨y, hy, rfl⟩
      exact hx y hy
    · exact pairsOf_lt hxs hrec

/-! ## Counting lemmas -/

theorem foldl_count {α : Type} (p : α → Prop) [DecidablePred p] :
    ∀ (l : List α) (acc : Nat),
      l.foldl (fun acc t => if p t then acc + 1 else acc) acc
        = acc + (l.filter (fun t => decide (p t))).length
  | [], acc => by simp
  | t :: l, acc => by
    by_cases h : p t
    · simp only [List.foldl_cons, if_pos h, List.filter_cons, decide_eq_true h, if_true,
        List.length_cons, foldl_count p l (acc + 1)]
      omega
    · simp only [List.foldl_cons, if_neg h, List.filter_cons, decide_eq_false h,
        Bool.false_eq_true, if_false, foldl_count p l acc]

theorem mem_addName (z : String) (l : List String) (n : String) :
    z ∈ addName l n ↔ z ∈ l ∨ z = n := by
  unfold addName
  split
  · rename_i h
    constructor
    · exact Or.inl
    · rintro (hz | rfl)
      · exact hz
      · exact h
  · simp

theorem nodup_addName {l : List String} (h : l.Nodup) (n : String) : (addName l n).Nodup := by
  unfold addName
  split
  · exact h
  · rename_i hn
    exact List.Nodup.append h (List.nodup_singleton n)
      (fun a ha hb => hn (by rwa [List.mem_singleton.mp hb] at ha))

theorem length_eq_of_nodup_of_mem_iff {l₁ l₂ : List String} (h1 : l₁.Nodup) (h2 : l₂.Nodup)
    (hm : ∀ z, z ∈ l₁ ↔ z ∈ l₂) : l₁.length = l₂.length := by
  have hf : l₁.toFinset = l₂.toFinset := Finset.ext (by simp [List.mem_toFinset, hm])
  calc l₁.length = l₁.toFinset.card := (List.toFinset_card_of_nodup h1).symm
    _ = l₂.toFinset.card := by rw [hf]
    _ = l₂.length := List.toFinset_card_of_nodup h2

/-! ## Occurrence counting: code counts versus the spec's distinct-thread counts -/

/-- The specification's reading of `person_counts[x]`: the number of
threads containing some raw mention that consolidates to `x`. -/
def distinctThreadCount (m : List (String × String)) (corpus : List (List String))
    (x : String) : Nat :=
  (corpus.filter (fun t => decide (∃ n ∈ t, consolidateEff m n = some x))).length

/-- The specification's reading of `occurrences`: the number of distinct
thread ids among the rows mentioning the name. -/
def distinctThreadIds (rows : List (String × List String)) (name : String) : Nat :=
  ((rows.filter (fun r => rowHasName name r)).map (fun r => r.1)).dedup.length

theorem mem_threadPersons {m : List (String × String)} {t : List String} {x : String} :
    x ∈ threadPersons m t ↔ ∃ n ∈ t, consolidateEff m n = some x := by
  simp [threadPersons, List.mem_dedup, List.mem_filterMap]

theorem personCount_eq (m : List (String × String)) (corpus : List (List String)) (x : String) :
    personCount m corpus x = distinctThreadCount m corpus x := by
  unfold personCount distinctThreadCount
  rw [foldl_count (fun t => x ∈ threadPersons m t) corpus 0, Nat.zero_add]
  congr 1
  apply List.filter_congr
  intro t _
  exact decide_eq_decide.mpr mem_threadPersons

theorem threadSetFor_spec (name : String) :
    ∀ (rows : List (String × List String)) (acc : List String), acc.Nodup →
      (rows.foldl (fun acc r => if rowHasName name r then addName acc r.1 else acc) acc).Nodup ∧
      ∀ z, z ∈ rows.foldl (fun acc r => if rowHasName name r then addName acc r.1 else acc) acc ↔
        z ∈ acc ∨ ∃ r, r ∈ rows ∧ rowHasName name r = true ∧ z = r.1
  | [], acc, h => ⟨h, by simp⟩
  | r :: rows, acc, h => by
    simp only [List.foldl_cons]
    by_cases hr : rowHasName name r = true
    · rw [if_pos hr]
      obtain ⟨hnd, hmem⟩ := threadSetFor_spec name rows (addName acc r.1) (nodup_addName h r.1)
      refine ⟨hnd, fun z => ?_⟩
      rw [hmem z, mem_addName]
      constructor
      · rintro ((hz | rfl) | ⟨r', hr', hp, rfl⟩)
        · exact Or.inl hz
        · exact Or.inr ⟨r, List.mem_cons_self r rows, hr, rfl⟩
        · exact Or.inr ⟨r', List.mem_cons_of_mem r hr', hp, rfl⟩
      · rintro (hz | ⟨r', hr', hp, rfl⟩)
        · exact Or.inl (Or.inl hz)
        · rcases List.mem_cons.mp hr' with rfl | hr'
          · exact Or.inl (Or.inr rfl)
          · exact Or.inr ⟨r', hr', hp, rfl⟩
    · rw [if_neg hr]
      obtain ⟨hnd, hmem⟩ := threadSetFor_spec name rows acc h
      refine ⟨hnd, fun z => ?_⟩
      rw [hmem z]
      constructor
      · rintro (hz | ⟨r', hr', hp, rfl⟩)
        · exact Or.inl hz
        · exact Or.inr ⟨r', List.mem_cons_of_mem r hr', hp, rfl⟩
      · rintro (hz | ⟨r', hr', hp, rfl⟩)
        · exact Or.inl hz
        · rcases List.mem_cons.mp hr' with rfl | hr'
          · exact absurd hp hr
          · exact Or.inr ⟨r', hr', hp, rfl⟩

theorem occurrences_eq (rows : List (String × List String)) (name : String) :
    occurrences rows name = distinctThreadIds rows name := by
  unfold occurrences distinctThreadIds threadSetFor
  obtain ⟨hnd, hmem⟩ := threadSetFor_spec name rows [] List.nodup_nil
  apply length_eq_of_nodup_of_mem_iff hnd (List.nodup_dedup _)
  intro z
  rw [hmem z]
  simp only [List.not_mem_nil, false_or, List.mem_dedup, List.mem_map, List.mem_filter]
  constructor
  · rintro ⟨r, hr, hp, rfl⟩
    exact ⟨r, ⟨hr, hp⟩, rfl⟩
  · rintro ⟨r, ⟨hr, hp⟩, rfl⟩
    exact ⟨r, hr, hp, rfl⟩

/-! ## Cell-wise semantics of the sequential `UPDATE` fold -/

theorem applyChanges_cellwise :
    ∀ (changes : List (String × String)) (t : List (String × String)),
      applyChanges t changes = t.map (fun rc => (rc.1, applyVal changes rc.2))
  | [], t => by
    show t = t.map (fun rc => (rc.1, rc.2))
    rw [show (fun rc : String × String => (rc.1, rc.2)) = id from funext fun rc => rfl,
      List.map_id]
  | p :: changes, t => by
    show applyChanges (applyPair t p) changes = _
    rw [applyChanges_cellwise changes (applyPair t p)]
    unfold applyPair
    rw [List.map_map]
    rfl

theorem applyVal_of_not_key :
    ∀ {changes : List (String × String)} {c : String},
      (∀ q ∈ changes, c ≠ q.1) → applyVal changes c = c
  | [], _, _ => rfl
  | q :: changes, c, h => by
    show List.foldl _ (if c = q.1 then q.2 else c) changes = c
    rw [if_neg (h q (List.mem_cons_self q changes))]
    exact applyVal_of_not_key fun q' hq' => h q' (List.mem_cons_of_mem q hq')

theorem applyVal_result :
    ∀ {changes : List (String × String)},
      (∀ p ∈ changes, ∀ q ∈ changes, p.2 ≠ q.1) → ∀ c : String,
        applyVal changes c = c ∨ ∃ p ∈ changes, applyVal changes c = p.2
  | [], _, _ => Or.inl rfl
  | q :: changes, h, c => by
    by_cases hc : c = q.1
    · refine Or.inr ⟨q, List.mem_cons_self q changes, ?_⟩
      show List.foldl _ (if c = q.1 then q.2 else c) changes = q.2
      rw [if_pos hc]
      exact applyVal_of_not_key fun q' hq' =>
        h q (List.mem_cons_self q changes) q' (List.mem_cons_of_mem q hq')
    · have hstep : applyVal (q :: changes) c = applyVal changes c := by
        show List.foldl _ (if c = q.1 then q.2 else c) changes = _
        rw [if_neg hc]
        rfl
      rcases applyVal_result
          (fun p hp q' hq' => h p (List.mem_cons_of_mem q hp) q' (List.mem_cons_of_mem q hq'))
          c with he | ⟨p, hp, he⟩
      · exact Or.inl (hstep.trans he)
      · exact Or.inr ⟨p, List.mem_cons_of_mem q hp, hstep.trans he⟩

theorem applyVal_idem {changes : List (String × String)}
    (h : ∀ p ∈ changes, ∀ q ∈ changes, p.2 ≠ q.1) (c : String) :
    applyVal changes (applyVal changes c) = applyVal changes c := by
  rcases applyVal_result h c with he | ⟨p, hp, he⟩
  · rw [he, he]
  · rw [he]
    exact applyVal_of_not_key fun q hq => h p hp q hq

theorem applyVal_key :
    ∀ {changes : List (String × String)},
      changes.Pairwise (fun p q => p.1 ≠ q.1) →
      (∀ p ∈ changes, ∀ q ∈ changes, p.2 ≠ q.1) →
      ∀ {p : String × String}, p ∈ changes → applyVal changes p.1 = p.2
  | [], _, _, _, hp => absurd hp (List.not_mem_nil _)
  | q :: changes, hkeys, hchain, p, hp => by
    rcases List.pairwise_cons.mp hkeys with ⟨hq, hkeys'⟩
    by_cases hc : p.1 = q.1
    · have hpq : p = q := by
        rcases List.mem_cons.mp hp with rfl | hp'
        · rfl
        · exact absurd hc.symm (hq p hp')
      subst hpq
      show List.foldl _ (if p.1 = p.1 then p.2 else p.1) changes = p.2
      rw [if_pos rfl]
      exact applyVal_of_not_key fun q' hq' =>
        hchain p (List.mem_cons_self p changes) q' (List.mem_cons_of_mem p hq')
    · have hp' : p ∈ changes := by
        rcases List.mem_cons.mp hp with rfl | hp'
        · exact absurd rfl hc
        · exact hp'
      show List.foldl _ (if p.1 = q.1 then q.2 else p.1) changes = p.2
      rw [if_neg hc]
      exact applyVal_key hkeys'
        (fun a ha b hb => hchain a (List.mem_cons_of_mem q ha) b (List.mem_cons_of_mem q hb)) hp'

theorem applyVal_perm {R R' : List (String × String)} (hperm : R.Perm R')
    (hkeys : R.Pairwise (fun p q => p.1 ≠ q.1))
    (hchain : ∀ p ∈ R, ∀ q ∈ R, p.2 ≠ q.1) (c : String) :
    applyVal R c = applyVal R' c := by
  have hkeys' : R'.Pairwise (fun p q => p.1 ≠ q.1) :=
    (hperm.pairwise_iff fun h => h.symm).mp hkeys
  have hchain' : ∀ p ∈ R', ∀ q ∈ R', p.2 ≠ q.1 := fun p hp q hq =>
    hchain p (hperm.symm.subset hp) q (hperm.symm.subset hq)
  by_cases hc : ∃ p ∈ R, c = p.1
  · obtain ⟨p, hp, rfl⟩ := hc
    rw [applyVal_key hkeys hchain hp, applyVal_key hkeys' hchain' (hperm.subset hp)]
  · push_neg at hc
    rw [applyVal_of_not_key hc, applyVal_of_not_key fun q hq => hc q (hperm.symm.subset hq)]

/-! ## Frame lemmas for the v3 pass and dictionary-overwrite lemmas -/

theorem applyF2c_keeps :
    ∀ (changes : List (String × String)) (rows : List RowV3),
      (applyF2c rows changes).map (fun r => (r.name, r.f2)) = rows.map (fun r => (r.name, r.f2))
  | [], _ => rfl
  | p :: changes, rows => by
    show (applyF2c (rows.map _) changes).map _ = _
    rw [applyF2c_keeps changes, List.map_map]
    rfl

theorem copyStep_keeps (rows : List RowV3) :
    (copyStep rows).map (fun r => (r.name, r.f2)) = rows.map (fun r => (r.name, r.f2)) := by
  unfold copyStep
  rw [List.map_map]
  rfl

theorem dget_dinsert (k v : String) : ∀ d, dget (dinsert d k v) k = some v
  | [] => by simp [dinsert, dget]
  | (k', v') :: rest => by
    unfold dinsert
    by_cases h : k' = k
    · rw [if_pos h]
      simp [dget, h]
    · rw [if_neg h]
      simp [dget, h, dget_dinsert k v rest]

theorem applyBatch_append (d R S : List (String × String)) :
    applyBatch d (R ++ S) = applyBatch (applyBatch d R) S := by
  unfold applyBatch
  exact List.foldl_append _ _ _ _

/-! ## Lemmas about the suffix-group dictionary -/

theorem two_le_length_of_mem_ne {α : Type} {x y : α} :
    ∀ {l : List α}, x ∈ l → y ∈ l → x ≠ y → 2 ≤ l.length
  | [], hx, _, _ => absurd hx (List.not_mem_nil x)
  | [a], hx, hy, hne => by
    rw [List.mem_singleton] at hx hy
    exact absurd (hx.trans hy.symm) hne
  | _ :: _ :: l, _, _, _ => by
    simp only [List.length_cons]
    omega

theorem addNorm_inv {gs : List (String × List String)} {k n : String}
    (hgs : ∀ kg ∈ gs, ∀ x ∈ kg.2, normalize_name x = kg.1) (hn : normalize_name n = k) :
    ∀ kg ∈ addNorm gs k n, ∀ x ∈ kg.2, normalize_name x = kg.1 := by
  induction gs with
  | nil =>
    intro kg hkg x hx
    rw [List.mem_singleton.mp hkg] at hx ⊢
    rw [List.mem_singleton.mp hx]
    exact hn
  | cons e rest ih =>
    obtain ⟨k', ns⟩ := e
    intro kg hkg x hx
    unfold addNorm at hkg
    by_cases hk : k' = k
    · rw [if_pos hk] at hkg
      rcases List.mem_cons.mp hkg with rfl | hkg
      · rcases List.mem_append.mp hx with hx | hx
        · exact hgs (k', ns) (List.mem_cons_self _ _) x hx
        · rw [List.mem_singleton.mp hx]
          rw [hn, hk]
      · exact hgs kg (List.mem_cons_of_mem _ hkg) x hx
    · rw [if_neg hk] at hkg
      rcases List.mem_cons.mp hkg with rfl | hkg
      · exact hgs (k', ns) (List.mem_cons_self _ _) x hx
      · exact ih (fun e he => hgs e (List.mem_cons_of_mem _ he)) kg hkg x hx

theorem addNorm_key_cases {gs : List (String × List String)} {k n : String} :
    ∀ kg ∈ addNorm gs k n, kg.1 = k ∨ ∃ e ∈ gs, kg.1 = e.1 := by
  induction gs with
  | nil =>
    intro kg hkg
    rw [List.mem_singleton.mp hkg]
    exact Or.inl rfl
  | cons e rest ih =>
    obtain ⟨k', ns⟩ := e
    intro kg hkg
    unfold addNorm at hkg
    by_cases hk : k' = k
    · rw [if_pos hk] at hkg
      rcases List.mem_cons.mp hkg with rfl | hkg
      · exact Or.inl hk
      · exact Or.inr ⟨kg, List.mem_cons_of_mem _ hkg, rfl⟩
    · rw [if_neg hk] at hkg
      rcases List.mem_cons.mp hkg with rfl | hkg
      · exact Or.inr ⟨(k', ns), List.mem_cons_self _ _, rfl⟩
      · rcases ih kg hkg with h | ⟨e, he, heq⟩
        · exact Or.inl h
        · exact Or.inr ⟨e, List.mem_cons_of_mem _ he, heq⟩

theorem addNorm_pairwise {gs : List (String × List String)} {k n : String}
    (h : gs.Pairwise (fun e1 e2 => e1.1 ≠ e2.1)) :
    (addNorm gs k n).Pairwise (fun e1 e2 => e1.1 ≠ e2.1) := by
  induction gs with
  | nil => exact List.pairwise_singleton _ _
  | cons e rest ih =>
    obtain ⟨k', ns⟩ := e
    rcases List.pairwise_cons.mp h with ⟨hhead, htail⟩
    unfold addNorm
    by_cases hk : k' = k
    · rw [if_pos hk]
      exact List.pairwise_cons.mpr ⟨hhead, htail⟩
    · rw [if_neg hk]
      refine List.pairwise_cons.mpr ⟨?_, ih htail⟩
      intro e' he'
      rcases addNorm_key_cases e' he' with h1 | ⟨e0, he0, heq⟩
      · rw [h1]
        exact hk
      · rw [heq]
        exact hhead e0 he0

theorem addNorm_mem (gs : List (String × List String)) (k n : String) :
    ∃ kg ∈ addNorm gs k n, kg.1 = k ∧ n ∈ kg.2 := by
  induction gs with
  | nil => exact ⟨(k, [n]), List.mem_singleton_self _, rfl, List.mem_singleton_self n⟩
  | cons e rest ih =>
    obtain ⟨k', ns⟩ := e
    unfold addNorm
    by_cases hk : k' = k
    · rw [if_pos hk]
      exact ⟨(k', ns ++ [n]), List.mem_cons_self _ _, hk,
        List.mem_append.mpr (Or.inr (List.mem_singleton_self n))⟩
    · rw [if_neg hk]
      obtain ⟨kg, hkg, hp⟩ := ih
      exact ⟨kg, List.mem_cons_of_mem _ hkg, hp⟩

theorem addNorm_preserve {gs : List (String × List String)} {kg : String × List String}
    (hkg : kg ∈ gs) (k n : String) :
    ∃ kg' ∈ addNorm gs k n, kg'.1 = kg.1 ∧ ∀ x ∈ kg.2, x ∈ kg'.2 := by
  induction gs with
  | nil => exact absurd hkg (List.not_mem_nil kg)
  | cons e rest ih =>
    obtain ⟨k', ns⟩ := e
    unfold addNorm
    by_cases hk : k' = k
    · rw [if_pos hk]
      rcases List.mem_cons.mp hkg with rfl | hkg
      · exact ⟨(k', ns ++ [n]), List.mem_cons_self _ _, rfl,
          fun x hx => List.mem_append.mpr (Or.inl hx)⟩
      · exact ⟨kg, List.mem_cons_of_mem _ hkg, rfl, fun x hx => hx⟩
    · rw [if_neg hk]
      rcases List.mem_cons.mp hkg with rfl | hkg
      · exact ⟨(k', ns), List.mem_cons_self _ _, rfl, fun x hx => hx⟩
      · obtain ⟨kg', hkg', hp⟩ := ih hkg
        exact ⟨kg', List.mem_cons_of_mem _ hkg', hp⟩

theorem buildNormGroups_fold_inv (n : String) :
    ∀ (l : List String) (gs : List (String × List String)),
      (∀ kg ∈ gs, ∀ x ∈ kg.2, normalize_name x = kg.1) →
      ∀ kg ∈ l.foldl (fun gs n => addNorm gs (normalize_name n) n) gs,
        ∀ x ∈ kg.2, normalize_name x = kg.1
  | [], _, hgs => hgs
  | a :: l, gs, hgs =>
    buildNormGroups_fold_inv n l (addNorm gs (normalize_name a) a) (addNorm_inv hgs rfl)

theorem buildNormGroups_inv (names : List String) :
    ∀ kg ∈ buildNormGroups names, ∀ x ∈ kg.2, normalize_name x = kg.1 :=
  buildNormGroups_fold_inv "" names [] (by intro kg h; exact absurd h (List.not_mem_nil kg))

theorem buildNormGroups_fold_pairwise :
    ∀ (l : List String) (gs : List (String × List String)),
      gs.Pairwise (fun e1 e2 => e1.1 ≠ e2.1) →
      (l.foldl (fun gs n => addNorm gs (normalize_name n) n) gs).Pairwise
        (fun e1 e2 => e1.1 ≠ e2.1)
  | [], _, hgs => hgs
  | a :: l, gs, hgs =>
    buildNormGroups_fold_pairwise l (addNorm gs (normalize_name a) a) (addNorm_pairwise hgs)

theorem buildNormGroups_pairwise (names : List String) :
    (buildNormGroups names).Pairwise (fun e1 e2 => e1.1 ≠ e2.1) :=
  buildNormGroups_fold_pairwise names [] List.Pairwise.nil

theorem buildNormGroups_fold_mem (n : String) :
    ∀ (l : List String) (gs : List (String × List String)),
      (∃ kg ∈ gs, kg.1 = normalize_name n ∧ n ∈ kg.2) ∨ n ∈ l →
      ∃ kg ∈ l.foldl (fun gs n => addNorm gs (normalize_name n) n) gs,
        kg.1 = normalize_name n ∧ n ∈ kg.2
  | [], _, h => by
    rcases h with h | h
    · exact h
    · exact absurd h (List.not_mem_nil n)
  | a :: l, gs, h => by
    apply buildNormGroups_fold_mem n l (addNorm gs (normalize_name a) a)
    rcases h with ⟨kg, hkg, hkey, hmem⟩ | h
    · obtain ⟨kg', hkg', hkey', hsub⟩ := addNorm_preserve hkg (normalize_name a) a
      exact Or.inl ⟨kg', hkg', hkey'.trans hkey, hsub n hmem⟩
    · rcases List.mem_cons.mp h with rfl | h
      · obtain ⟨kg, hkg, hkey, hmem⟩ := addNorm_mem gs (normalize_name n) n
        exact Or.inl ⟨kg, hkg, hkey, hmem⟩
      · exact Or.inr h

theorem buildNormGroups_mem {names : List String} {n : String} (h : n ∈ names) :
    ∃ kg ∈ buildNormGroups names, kg.1 = normalize_name n ∧ n ∈ kg.2 :=
  buildNormGroups_fold_mem n names [] (Or.inr h)

theorem eq_of_key_eq :
    ∀ {l : List (String × List String)}, l.Pairwise (fun e1 e2 => e1.1 ≠ e2.1) →
      ∀ {e1 e2 : String × List String}, e1 ∈ l → e2 ∈ l → e1.1 = e2.1 → e1 = e2
  | [], _, e1, _, h1, _, _ => absurd h1 (List.not_mem_nil e1)
  | a :: l, hp, e1, e2, h1, h2, hk => by
    rcases List.pairwise_cons.mp hp with ⟨hhead, htail⟩
    rcases List.mem_cons.mp h1 with he1 | h1m
    · rcases List.mem_cons.mp h2 with he2 | h2m
      · rw [he1, he2]
      · refine absurd ?_ (hhead e2 h2m)
        rw [← he1]
        exact hk
    · rcases List.mem_cons.mp h2 with he2 | h2m
      · refine absurd ?_ (hhead e1 h1m)
        rw [← he2]
        exact hk.symm
      · exact eq_of_key_eq htail h1m h2m hk

/-! ## Lemmas about the token-overlap matcher -/

theorem exists_two_distinct_of_nodup :
    ∀ {l : List String}, l.Nodup → 2 ≤ l.length → ∃ x y, x ∈ l ∧ y ∈ l ∧ x ≠ y
  | [], _, hl => by simp at hl
  | [_], _, hl => by simp at hl
  | x :: y :: rest, hn, _ => by
    rcases List.pairwise_cons.mp hn with ⟨hx, _⟩
    exact ⟨x, y, List.mem_cons_self _ _,
      List.mem_cons_of_mem _ (List.mem_cons_self _ _), hx y (List.mem_cons_self _ _)⟩

theorem tokenize_nodup (name : String) : (tokenize_name name).Nodup :=
  List.nodup_dedup _

theorem sharedTokens_nodup (a b : String) : (sharedTokens a b).Nodup :=
  List.Nodup.inter _ (tokenize_nodup a)

theorem mem_sharedTokens {a b t : String} :
    t ∈ sharedTokens a b ↔ t ∈ tokenize_name a ∧ t ∈ tokenize_name b :=
  List.mem_inter_iff

theorem pairList_mem {names : List String} {p : String × String} (hp : p ∈ pairList names) :
    strLt p.1 p.2 = true ∧ 2 ≤ (sharedTokens p.1 p.2).length := by
  unfold pairList at hp
  rcases List.mem_flatten.mp hp with ⟨l, hl, hpl⟩
  rcases List.mem_map.mp hl with ⟨a, _, rfl⟩
  rcases List.mem_filterMap.mp hpl with ⟨b, _, hif⟩
  by_cases hcond : strLt a b ∧ 2 ≤ (sharedTokens a b).length
  · rw [if_pos hcond] at hif
    rw [← Option.some.inj hif]
    exact hcond
  · rw [if_neg hcond] at hif
    cases hif

theorem addPairToGroups_inv {gs : List (List String × List String)} {key : List String}
    {a b : String} (hgs : ∀ e ∈ gs, GroupInv e)
    (hkey1 : ∃ x y, x ∈ key ∧ y ∈ key ∧ x ≠ y)
    (hkey2 : ∀ t ∈ key, t ∈ tokenize_name a ∧ t ∈ tokenize_name b) :
    ∀ e ∈ addPairToGroups gs key a b, GroupInv e := by
  induction gs with
  | nil =>
    intro e he
    rw [List.mem_singleton.mp he]
    refine ⟨hkey1, fun n hn t ht => ?_⟩
    rcases (mem_addName n _ b).mp hn with hn | rfl
    · rcases (mem_addName n _ a).mp hn with hn | rfl
      · exact absurd hn (List.not_mem_nil n)
      · exact (hkey2 t ht).1
    · exact (hkey2 t ht).2
  | cons e0 rest ih =>
    obtain ⟨k, ns⟩ := e0
    intro e he
    unfold addPairToGroups at he
    by_cases hk : k = key
    · rw [if_pos hk] at he
      rcases List.mem_cons.mp he with rfl | he
      · obtain ⟨hex, htok⟩ := hgs (k, ns) (List.mem_cons_self _ _)
        refine ⟨hex, fun n hn t ht => ?_⟩
        rcases (mem_addName n _ b).mp hn with hn | rfl
        · rcases (mem_addName n _ a).mp hn with hn | rfl
          · exact htok n hn t ht
          · exact (hkey2 t (hk ▸ ht)).1
        · exact (hkey2 t (hk ▸ ht)).2
      · exact hgs e (List.mem_cons_of_mem _ he)
    · rw [if_neg hk] at he
      rcases List.mem_cons.mp he with rfl | he
      · exact hgs (k, ns) (List.mem_cons_self _ _)
      · exact ih (fun e' he' => hgs e' (List.mem_cons_of_mem _ he')) e he

theorem buildGroups_fold_inv :
    ∀ (ps : List (String × String)) (gs : List (List String × List String)),
      (∀ p ∈ ps, 2 ≤ (sharedTokens p.1 p.2).length) → (∀ e ∈ gs, GroupInv e) →
      ∀ e ∈ ps.foldl (fun gs p => addPairToGroups gs (ssort (sharedTokens p.1 p.2)) p.1 p.2) gs,
        GroupInv e
  | [], _, _, hgs => hgs
  | p :: ps, gs, hps, hgs => by
    apply buildGroups_fold_inv ps _ (fun q hq => hps q (List.mem_cons_of_mem p hq))
    apply addPairToGroups_inv hgs
    · obtain ⟨x, y, hx, hy, hxy⟩ :=
        exists_two_distinct_of_nodup (sharedTokens_nodup p.1 p.2)
          (hps p (List.mem_cons_self p ps))
      exact ⟨x, y, (mem_ssort x _).mpr hx, (mem_ssort y _).mpr hy, hxy⟩
    · intro t ht
      exact mem_sharedTokens.mp ((mem_ssort t _).mp ht)

theorem buildGroups_inv (names : List String) : ∀ e ∈ buildGroups names, GroupInv e := by
  apply buildGroups_fold_inv (pairList names) []
  · intro p hp
    exact (pairList_mem hp).2
  · intro e he
    exact absurd he (List.not_mem_nil e)

theorem mem_insByLen {z x : List String × List String} :
    ∀ {l : List (List String × List String)}, z ∈ insByLen x l → z = x ∨ z ∈ l
  | [], h => Or.inl (List.mem_singleton.mp h)
  | y :: ys, h => by
    unfold insByLen at h
    split at h
    · exact (List.mem_cons.mp h).imp id id
    · rcases List.mem_cons.mp h with rfl | h
      · exact Or.inr (List.mem_cons_self _ _)
      · rcases mem_insByLen h with h | h
        · exact Or.inl h
        · exact Or.inr (List.mem_cons_of_mem _ h)

theorem mem_sortByLenDesc {z : List String × List String} :
    ∀ {l : List (List String × List String)}, z ∈ sortByLenDesc l → z ∈ l
  | [], h => h
  | a :: l, h => by
    rcases mem_insByLen h with rfl | h
    · exact List.mem_cons_self _ _
    · exact List.mem_cons_of_mem _ (mem_sortByLenDesc h)

theorem emitGroups_mem :
    ∀ {L : List (List String × List String)} {seen : List String} {g : List String},
      g ∈ emitGroups L seen →
      2 ≤ g.length ∧ ∃ e ∈ L, ∀ n ∈ g, n ∈ e.2 ∧ n ∉ seen
  | [], _, g, h => absurd h (List.not_mem_nil g)
  | (k, gnames) :: rest, seen, g, h => by
    unfold emitGroups at h
    dsimp only at h
    split at h
    · rename_i hlen
      rcases List.mem_cons.mp h with rfl | h
      · refine ⟨hlen, (k, gnames), List.mem_cons_self _ _, fun n hn => ?_⟩
        have := List.mem_filter.mp hn
        exact ⟨this.1, of_decide_eq_true this.2⟩
      · obtain ⟨hl, e, he, hsub⟩ := emitGroups_mem h
        refine ⟨hl, e, List.mem_cons_of_mem _ he, fun n hn => ?_⟩
        obtain ⟨hne, hns⟩ := hsub n hn
        exact ⟨hne, fun hmem => hns (List.mem_append.mpr (Or.inl hmem))⟩
    · obtain ⟨hl, e, he, hsub⟩ := emitGroups_mem h
      exact ⟨hl, e, List.mem_cons_of_mem _ he, hsub⟩

theorem emitGroups_pairwise :
    ∀ (L : List (List String × List String)) (seen : List String),
      (emitGroups L seen).Pairwise (fun g1 g2 => ∀ n, n ∈ g1 → n ∉ g2)
  | [], _ => List.Pairwise.nil
  | (k, gnames) :: rest, seen => by
    unfold emitGroups
    dsimp only
    split
    · refine List.pairwise_cons.mpr ⟨?_, emitGroups_pairwise rest _⟩
      intro g' hg' n hn hng'
      obtain ⟨_, e, _, hsub⟩ := emitGroups_mem hg'
      exact (hsub n hng').2 (List.mem_append.mpr (Or.inr hn))
    · exact emitGroups_pairwise rest seen

/-! ## Claim theorems -/

/-- C1, counterexample: the response set `{A→B, B→C}` applied by the
sequential `UPDATE` loop to the one-row generation `a ↦ A` is
order-dependent (the two iteration orders give different generations),
and in the order `[(B,C), (A,B)]` applying it twice differs from
applying it once. -/
theorem claim_C1_counterexample :
    List.Perm [(("A" : String), ("B" : String)), ("B", "C")] [("B", "C"), ("A", "B")] ∧
    applyChanges [("a", "A")] [("A", "B"), ("B", "C")] ≠
      applyChanges [("a", "A")] [("B", "C"), ("A", "B")] ∧
    applyChanges (applyChanges [("a", "A")] [("B", "C"), ("A", "B")]) [("B", "C"), ("A", "B")] ≠
      applyChanges [("a", "A")] [("B", "C"), ("A", "B")] := by
  decide

/-- C1 (amended): applying an oracle response set `R` to a generation is
the sequential fold `applyChanges`, so chained pairs (a new name that is
also another pair's old name) make the result depend on iteration order
and on re-application.  Provided the old names of `R` are pairwise
distinct (as they are when `R` comes from a Python dict) and no new
name of `R` occurs among its old names, applying `R` twice yields the
generation obtained by applying it once, and the result is invariant
under permutation of the `(old, new)` pairs. -/
theorem claim_C1_idempotent_of_unchained (t R : List (String × String))
    (hkeys : R.Pairwise (fun p q => p.1 ≠ q.1))
    (hchain : ∀ p ∈ R, ∀ q ∈ R, p.2 ≠ q.1) :
    applyChanges (applyChanges t R) R = applyChanges t R ∧
    ∀ R', R.Perm R' → applyChanges t R' = applyChanges t R := by
  constructor
  · rw [applyChanges_cellwise, applyChanges_cellwise R t, List.map_map]
    have hf : ((fun rc : String × String => (rc.1, applyVal R rc.2)) ∘
        fun rc : String × String => (rc.1, applyVal R rc.2)) =
        fun rc : String × String => (rc.1, applyVal R rc.2) :=
      funext fun rc => by simp [Function.comp, applyVal_idem hchain]
    rw [hf]
  · intro R' hperm
    rw [applyChanges_cellwise R t, applyChanges_cellwise R' t]
    have hf : (fun rc : String × String => (rc.1, applyVal R' rc.2)) =
        fun rc : String × String => (rc.1, applyVal R rc.2) :=
      funext fun rc => by rw [applyVal_perm hperm hkeys hchain rc.2]
    rw [hf]

/-- C1, witness for the amended theorem at the generation `a ↦ A` and
the unchained response set `{A→B}`. -/
theorem claim_C1_witness :
    ([(("A" : String), ("B" : String))].Pairwise (fun p q => p.1 ≠ q.1) ∧
      ∀ p ∈ [(("A" : String), ("B" : String))], ∀ q ∈ [(("A" : String), ("B" : String))],
        p.2 ≠ q.1) ∧
    applyChanges (applyChanges [("a", "A")] [("A", "B")]) [("A", "B")] =
      applyChanges [("a", "A")] [("A", "B")] :=
  ⟨⟨by decide, by decide⟩,
    (claim_C1_idempotent_of_unchained [("a", "A")] [("A", "B")] (by decide) (by decide)).1⟩

/-- C2, counterexample: the v2 pass (`run_name_consolidation_v2.py`,
lines 193–207) rewrites the very column it read (`canonical_name [F2]`),
so after the pass the raw name `a`'s canonical value under the input
generation has changed — the pass mutates the generation it was given
instead of producing a new layered one. -/
theorem claim_C2_counterexample :
    dget (applyChanges [("a", "A")] [("A", "B")]) "a" ≠ dget [("a", "A")] "a" ∧
    dget (applyChanges [("a", "A")] [("A", "B")]) "a" = some "B" := by
  decide

/-- C2 (amended): the v3/v4-shaped passes are append-only — they copy
the input generation's column into a fresh column and rewrite only the
fresh column, so every raw name's canonical value under the input
generation is unchanged; the v2 pass, by contrast, updates the input
generation's column in place. -/
theorem claim_C2_v3_append_only (rows : List RowV3) (changes : List (String × String)) :
    (v3Pass rows changes).map (fun r => (r.name, r.f2)) = rows.map (fun r => (r.name, r.f2)) := by
  unfold v3Pass
  rw [applyF2c_keeps, copyStep_keeps]

/-- C3, counterexample: a raw name absent from the mapping is dropped
(`None`) by `consolidate_name` in the final `build_network.py`, not kept
as its own canonical entity. -/
theorem claim_C3_counterexample :
    consolidate_name [] "Alice" = none ∧ consolidate_name [] "Alice" ≠ some "Alice" := by
  decide

/-- C3 (amended): for a raw name absent from the generation's mapping,
the consolidation pass (`run_name_consolidation.py` line 213) assigns
the name itself as canonical (identity fallback, no error), but
`consolidate_name` in the final `build_network.py` returns `None` for
it, dropping the mention from network construction. -/
theorem claim_C3_absent_name (m : List (String × String)) (name : String)
    (habsent : dget m name = none) :
    canonicalFor m name = name ∧ (name ≠ "" → consolidate_name m name = none) := by
  constructor
  · unfold canonicalFor
    rw [habsent]
  · intro hne
    unfold consolidate_name
    rw [if_neg hne, habsent]

/-- C3, witness at the empty mapping and the name `Alice`. -/
theorem claim_C3_witness :
    dget [] "Alice" = none ∧ canonicalFor [] "Alice" = "Alice" ∧
      consolidate_name [] "Alice" = none :=
  ⟨by decide, (claim_C3_absent_name [] "Alice" (by decide)).1,
    (claim_C3_absent_name [] "Alice" (by decide)).2 (by decide)⟩

/-- C4, counterexample: a batch asserting both `A→B` and `A→C` is merged
into `all_changes` by plain dictionary insertion; the later pair
silently overwrites the earlier one — nothing is flagged, logged or
rejected, and the earlier assignment simply disappears. -/
theorem claim_C4_counterexample :
    applyBatch [] [("A", "B"), ("A", "C")] = [("A", "C")] ∧
    dget (applyBatch [] [("A", "B"), ("A", "C")]) "A" ≠ some "B" := by
  decide

/-- C4 (amended): conflicting assignments to the same `old_name` are
resolved silently by last-write-wins dictionary overwrite: whatever
pairs precede it, the final `(old, new)` entry of a batch determines the
recorded value of `old`, with no conflict surfaced. -/
theorem claim_C4_last_write_wins (d R : List (String × String)) (old new : String) :
    dget (applyBatch d (R ++ [(old, new)])) old = some new := by
  rw [applyBatch_append]
  exact dget_dinsert old new (applyBatch d R)

/-- C5: the code's `person_counts[x]` (one increment per email row whose
consolidated person set contains `x`) equals the number of distinct
threads containing some raw mention consolidating to `x` — rows are
threads because `thread_id` is the input table's primary key; likewise
`occurrences` in `create_unique_names.py` equals the number of distinct
thread ids whose row mentions the name, so `k > 1` mentions inside one
thread contribute exactly 1, as in the claim's example where `X` occurs
twice in thread `t1` and once in `t2` and gets count 2. -/
theorem claim_C5_occurrence_counts :
    (∀ (m : List (String × String)) (corpus : List (List String)) (x : String),
      personCount m corpus x = distinctThreadCount m corpus x) ∧
    (∀ (rows : List (String × List String)) (name : String),
      occurrences rows name = distinctThreadIds rows name) ∧
    personCount [("X", "X")] [["X", "X"], ["X"], ["Y"]] "X" = 2 ∧
    occurrences [("t1", ["X", "X"]), ("t2", ["X"]), ("t3", ["Y"])] "X" = 2 :=
  ⟨personCount_eq, occurrences_eq, by decide, by decide⟩

/-- C6: on the four-thread corpus `T1:{Alice,Bob}`, `T2:{Alice,Bob}`,
`T3:{Alice,Carol}`, `T4:{Bob,Carol}` with `min_occurrences = 2` and
`min_edge_weight = 2` (the thresholds are hard-coded per script and
taken as parameters here), the builder keeps exactly the edge
`(Alice, Bob)` with weight 2, the `(Alice, Carol)` and `(Bob, Carol)`
pairs have weight 1 and are excluded, and the final node set — the
endpoints of surviving edges, which is what remains after isolate
removal — is exactly `{Alice, Bob}`, Carol having no surviving edge. -/
theorem claim_C6_end_to_end :
    keptEdges [("Alice", "Alice"), ("Bob", "Bob"), ("Carol", "Carol")]
        [["Alice", "Bob"], ["Alice", "Bob"], ["Alice", "Carol"], ["Bob", "Carol"]] 2 2 =
      [(("Alice", "Bob"), 2)] ∧
    finalNodes [("Alice", "Alice"), ("Bob", "Bob"), ("Carol", "Carol")]
        [["Alice", "Bob"], ["Alice", "Bob"], ["Alice", "Carol"], ["Bob", "Carol"]] 2 2 =
      ["Alice", "Bob"] ∧
    edgeCount [("Alice", "Alice"), ("Bob", "Bob"), ("Carol", "Carol")]
        [["Alice", "Bob"], ["Alice", "Bob"], ["Alice", "Carol"], ["Bob", "Carol"]] 2
        ("Alice", "Carol") = 1 ∧
    edgeCount [("Alice", "Alice"), ("Bob", "Bob"), ("Carol", "Carol")]
        [["Alice", "Bob"], ["Alice", "Bob"], ["Alice", "Carol"], ["Bob", "Carol"]] 2
        ("Bob", "Carol") = 1 ∧
    personCount [("Alice", "Alice"), ("Bob", "Bob"), ("Carol", "Carol")]
        [["Alice", "Bob"], ["Alice", "Bob"], ["Alice", "Carol"], ["Bob", "Carol"]] "Carol" = 2 := by
  decide

/-- C7: every unordered pair stored by the edge builder is canonical:
a positive edge count forces the pair to be strictly sorted (first
component below the second in the code-point order `strLt` used by
Python's `sorted`), hence no self-loop `(a, a)` is ever stored even
when a thread lists an entity twice, and for any two entities at most
one of `(a, b)` and `(b, a)` carries a positive count, so one stored
entry per unordered pair. -/
theorem claim_C7_edge_canonicalization (m : List (String × String))
    (corpus : List (List String)) (minOcc : Nat) (a b : String) :
    (0 < edgeCount m corpus minOcc (a, b) → strLt a b = true) ∧
    edgeCount m corpus minOcc (a, a) = 0 ∧
    (edgeCount m corpus minOcc (a, b) = 0 ∨ edgeCount m corpus minOcc (b, a) = 0) := by
  have key : ∀ x y : String, 0 < edgeCount m corpus minOcc (x, y) → strLt x y = true := by
    intro x y h
    unfold edgeCount at h
    rw [foldl_count (fun t => (x, y) ∈ threadPairs m corpus minOcc t) corpus 0,
      Nat.zero_add] at h
    obtain ⟨t, ht⟩ := List.exists_mem_of_length_pos h
    rw [List.mem_filter, decide_eq_true_eq] at ht
    exact pairsOf_lt (ssort_pairwise _) ht.2
  refine ⟨key a b, ?_, ?_⟩
  · by_contra h
    have hlt := key a a (Nat.pos_of_ne_zero h)
    rw [strLt_irrefl] at hlt
    exact Bool.false_ne_true hlt
  · by_cases hab : edgeCount m corpus minOcc (a, b) = 0
    · exact Or.inl hab
    · refine Or.inr ?_
      by_contra hba
      have h1 := key a b (Nat.pos_of_ne_zero hab)
      have h2 := key b a (Nat.pos_of_ne_zero hba)
      rw [strLt_asymm h1] at h2
      exact Bool.false_ne_true h2

/-- C7, witness at a one-thread corpus containing Alice and Bob. -/
theorem claim_C7_witness :
    0 < edgeCount [("Alice", "Alice"), ("Bob", "Bob")] [["Alice", "Bob"]] 0 ("Alice", "Bob") ∧
    strLt "Alice" "Bob" = true :=
  ⟨by decide,
    (claim_C7_edge_canonicalization [("Alice", "Alice"), ("Bob", "Bob")] [["Alice", "Bob"]] 0
      "Alice" "Bob").1 (by decide)⟩

/-- C8: for every input list of names, the emitted token-overlap groups
are pairwise disjoint (a name lands in at most one emitted group, the
first found winning), each has at least two members, and any two names
of one group share at least two normalized tokens — both names of a
group contain every token of the group's key, which holds two distinct
tokens. -/
theorem claim_C8_token_overlap (names : List String) :
    (find_potential_duplicates names).Pairwise (fun g1 g2 => ∀ n, n ∈ g1 → n ∉ g2) ∧
    ∀ g ∈ find_potential_duplicates names,
      2 ≤ g.length ∧ ∀ a ∈ g, ∀ b ∈ g, 2 ≤ (sharedTokens a b).length := by
  constructor
  · exact emitGroups_pairwise _ _
  · intro g hg
    obtain ⟨hlen, e, he, hsub⟩ := emitGroups_mem hg
    refine ⟨hlen, ?_⟩
    obtain ⟨⟨x, y, hx, hy, hxy⟩, htok⟩ := buildGroups_inv names e (mem_sortByLenDesc he)
    intro a ha b hb
    have hta := htok a (hsub a ha).1
    have htb := htok b (hsub b hb).1
    exact two_le_length_of_mem_ne (mem_sharedTokens.mpr ⟨hta x hx, htb x hx⟩)
      (mem_sharedTokens.mpr ⟨hta y hy, htb y hy⟩) hxy

/-- C8, witness: on the input `[John Smith, Smith John, Bo]` the matcher
emits the group `[John Smith, Smith John]`, whose two members share the
two tokens `john` and `smith`. -/
theorem claim_C8_witness :
    (["John Smith", "Smith John"] ∈ find_potential_duplicates ["John Smith", "Smith John", "Bo"]) ∧
    2 ≤ (sharedTokens "John Smith" "Smith John").length :=
  ⟨by decide,
    (((claim_C8_token_overlap ["John Smith", "Smith John", "Bo"]).2
      ["John Smith", "Smith John"] (by decide)).2 "John Smith" (by decide)
      "Smith John" (by decide))⟩

/-- C9: in any input list containing `Landon Thomas` and
`Landon Thomas Jr.`, `find_suffix_duplicates` puts those two names
together in one output group (they strip to the common normal form
`landon thomas`), and `Landon Smith Jr.` (normal form `landon smith`)
never shares an output group with either of them, because every output
group consists of names with one common normal form. -/
theorem claim_C9_suffix_groups (names : List String)
    (h1 : "Landon Thomas" ∈ names) (h2 : "Landon Thomas Jr." ∈ names) :
    (∃ g, g ∈ find_suffix_duplicates names ∧
      "Landon Thomas" ∈ g ∧ "Landon Thomas Jr." ∈ g) ∧
    (∀ g ∈ find_suffix_duplicates names, "Landon Smith Jr." ∈ g →
      "Landon Thomas" ∉ g ∧ "Landon Thomas Jr." ∉ g) := by
  have hnorm1 : normalize_name "Landon Thomas" = "landon thomas" := by decide
  have hnorm2 : normalize_name "Landon Thomas Jr." = "landon thomas" := by decide
  have hnorm3 : normalize_name "Landon Smith Jr." = "landon smith" := by decide
  constructor
  · obtain ⟨kg1, hkg1, hk1, hm1⟩ := buildNormGroups_mem h1
    obtain ⟨kg2, hkg2, hk2, hm2⟩ := buildNormGroups_mem h2
    have hsame : kg1 = kg2 :=
      eq_of_key_eq (buildNormGroups_pairwise names) hkg1 hkg2
        (by rw [hk1, hk2, hnorm1, hnorm2])
    subst hsame
    have hlen : 2 ≤ kg1.2.length := two_le_length_of_mem_ne hm1 hm2 (by decide)
    refine ⟨kg1.2, ?_, hm1, hm2⟩
    unfold find_suffix_duplicates
    exact List.mem_filterMap.mpr ⟨kg1, hkg1, by rw [if_pos hlen]⟩
  · intro g hg hs
    obtain ⟨kg, hkg, heq⟩ := List.mem_filterMap.mp hg
    have hgeq : g = kg.2 := by
      by_cases hl : 2 ≤ kg.2.length
      · rw [if_pos hl] at heq
        exact (Option.some.inj heq).symm
      · rw [if_neg hl] at heq
        cases heq
    subst hgeq
    have hinv := buildNormGroups_inv names kg hkg
    have es := hinv _ hs
    constructor
    · intro hmem
      have et := hinv _ hmem
      rw [hnorm3] at es
      rw [hnorm1, ← es] at et
      exact absurd et (by decide)
    · intro hmem
      have et := hinv _ hmem
      rw [hnorm3] at es
      rw [hnorm2, ← es] at et
      exact absurd et (by decide)

/-- C9, witness at the three-name input from the claim. -/
theorem claim_C9_witness :
    ("Landon Thomas" ∈ (["Landon Thomas", "Landon Thomas Jr.", "Landon Smith Jr."] : List String)) ∧
    ∃ g, g ∈ find_suffix_duplicates ["Landon Thomas", "Landon Thomas Jr.", "Landon Smith Jr."] ∧
      "Landon Thomas" ∈ g ∧ "Landon Thomas Jr." ∈ g :=
  ⟨by decide,
    (claim_C9_suffix_groups ["Landon Thomas", "Landon Thomas Jr.", "Landon Smith Jr."]
      (by decide) (by decide)).1⟩

/-- C10: `consolidate_name` returns no entity whenever the raw name
itself is in the hard-coded exclusion set, and whenever the canonical
value the mapping assigns to it is in the exclusion set — exclusion
matches the raw string as well as the canonical one. -/
theorem claim_C10_exclusion (m : List (String × String)) (name : String) :
    (name ∈ EXCLUDED_NAMES → consolidate_name m name = none) ∧
    (∀ c, dget m name = some c → c ∈ EXCLUDED_NAMES → consolidate_name m name = none) := by
  constructor
  · intro hname
    unfold consolidate_name
    split
    · rfl
    · cases hd : dget m name with
      | none => rfl
      | some c =>
        show (if c = "None" then none
          else if c ∈ EXCLUDED_NAMES ∨ name ∈ EXCLUDED_NAMES then none else some c) = none
        by_cases hc : c = "None"
        · rw [if_pos hc]
        · rw [if_neg hc, if_pos (Or.inr hname)]
  · intro c hd hc
    unfold consolidate_name
    split
    · rfl
    · rw [hd]
      show (if c = "None" then none
        else if c ∈ EXCLUDED_NAMES ∨ name ∈ EXCLUDED_NAMES then none else some c) = none
      by_cases hcn : c = "None"
      · rw [if_pos hcn]
      · rw [if_neg hcn, if_pos (Or.inl hc)]

/-- C10, witness: the raw name `Jeff` is excluded even though its
canonical value `Bill Gates` is not, and the raw name `Mr X` is dropped
because its canonical value `Epstein` is excluded even though `Mr X`
itself is not. -/
theorem claim_C10_witness :
    ("Jeff" ∈ EXCLUDED_NAMES ∧ consolidate_name [("Jeff", "Bill Gates")] "Jeff" = none) ∧
    (dget [("Mr X", "Epstein")] "Mr X" = some "Epstein" ∧ "Epstein" ∈ EXCLUDED_NAMES ∧
      consolidate_name [("Mr X", "Epstein")] "Mr X" = none) :=
  ⟨⟨by decide, (claim_C10_exclusion [("Jeff", "Bill Gates")] "Jeff").1 (by decide)⟩,
    ⟨by decide, by decide,
      (claim_C10_exclusion [("Mr X", "Epstein")] "Mr X").2 "Epstein" (by decide) (by decide)⟩⟩

end EpsteinFiles
